import Mathlib

/-!
Verification of the rhythm-piano core against its specification.

The development shallowly embeds the relevant JavaScript sources:
* `src/parser.js` — `parseABC` (tokenizer, note/octave/duration parsing,
  flat-to-sharp canonicalization);
* the MIDI converter — `convertTrackToAbc` (stable sort, chord reduction,
  `formatAbcDuration`, `getABCNoteName`, octave clipping) and the
  duration-multiplier search of the integer-quantizing variant;
* `src/main.js` — the wait-mode effective-delta computation, the melody
  sequencer loop of the game ticker, and the `pressKey` hit judgment.

JavaScript numbers are modelled as exact rationals; the only place where
non-finite values are reachable (the parser's duration field, where a
fraction may divide by zero) uses the `JsNum` type with explicit
NaN/Infinity values.  Machine floats are treated as exact rational
arithmetic, which is faithful for the small integer-derived values these
functions manipulate.
-/

namespace RhythmPiano

-- The core rational operations are irreducible by default, which blocks
-- kernel evaluation of concrete instances; proofs only need them unfolded.
attribute [local semireducible] Rat.mul Rat.add Rat.sub Rat.inv

/-- The apostrophe character (ABC octave-raise mark), code point 39. -/
def apoChar : Char := Char.ofNat 39

/-- A JavaScript number as produced by the parser's duration arithmetic:
either an exact rational, positive or negative Infinity, or NaN. -/
inductive JsNum where
  | nan
  | inf
  | negInf
  | fin (q : ℚ)
deriving DecidableEq, Repr

/-- JavaScript division restricted to the values reachable in the parser.
Mirrors IEEE semantics: division by zero gives a signed infinity (NaN for
0/0), NaN propagates, and finite/infinite is zero. -/
def jsDiv : JsNum → JsNum → JsNum
  | .nan, _ => .nan
  | .inf, .nan | .negInf, .nan | .fin _, .nan => .nan
  | .inf, .inf | .inf, .negInf | .negInf, .inf | .negInf, .negInf => .nan
  | .inf, .fin b => if 0 ≤ b then .inf else .negInf
  | .negInf, .fin b => if 0 ≤ b then .negInf else .inf
  | .fin _, .inf => .fin 0
  | .fin _, .negInf => .fin 0
  | .fin a, .fin b =>
      if b = 0 then (if a = 0 then .nan else if 0 < a then .inf else .negInf)
      else .fin (a / b)

/-- Numeric value of a digit string. -/
def digitsVal (l : List Char) : ℕ := l.foldl (fun n c => 10 * n + (c.toNat - 48)) 0

/-- JavaScript `parseFloat` restricted to the character alphabet that can
reach the parser's duration code (digits, commas, apostrophes): the value
of the maximal leading digit run, or NaN if there is none.  (Signs, decimal
points and exponents cannot occur in that alphabet.) -/
def jsParseFloat (l : List Char) : JsNum :=
  let digits := l.takeWhile Char.isDigit
  if digits.isEmpty then .nan else .fin (digitsVal digits : ℚ)

/-- The note characters accepted by the `parseABC` token pattern
`[A-Ga-gz]`. -/
def noteChars : List Char :=
  ['A', 'B', 'C', 'D', 'E', 'F', 'G', 'a', 'b', 'c', 'd', 'e', 'f', 'g', 'z']

def isNoteChar (c : Char) : Bool := noteChars.contains c

def isAccChar (c : Char) : Bool := c = '^' || c = '_'

def isOctChar (c : Char) : Bool := c = ',' || c = apoChar

def isDurChar (c : Char) : Bool := c.isDigit || c = '/'

/-- Tokenizer for the pattern `[\^_]?[A-Ga-gz][,']*[\d\/]*` applied
globally: at each position, match an optional accidental, a required note
character, then greedy octave marks and duration characters; characters
that match nothing are skipped.  Fuel-indexed for structural recursion;
`l.length` fuel always suffices because every step consumes at least one
character. -/
def tokenizeF : ℕ → List Char → List (List Char)
  | 0, _ => []
  | _, [] => []
  | fuel + 1, c :: rest =>
    if isAccChar c then
      match rest with
      | [] => []
      | d :: rest2 =>
        if isNoteChar d then
          let marks := rest2.takeWhile isOctChar
          let r1 := rest2.dropWhile isOctChar
          let durs := r1.takeWhile isDurChar
          let r2 := r1.dropWhile isDurChar
          (c :: d :: (marks ++ durs)) :: tokenizeF fuel r2
        else
          tokenizeF fuel rest
    else if isNoteChar c then
      let marks := rest.takeWhile isOctChar
      let r1 := rest.dropWhile isOctChar
      let durs := r1.takeWhile isDurChar
      let r2 := r1.dropWhile isDurChar
      (c :: (marks ++ durs)) :: tokenizeF fuel r2
    else
      tokenizeF fuel rest

def tokenize (l : List Char) : List (List Char) := tokenizeF l.length l

/-- A parsed event of `parseABC`: a game note id (`null` for a rest) and a
duration. -/
structure NoteEv where
  id : Option String
  duration : JsNum
deriving DecidableEq, Repr

/-- Step C of `parseABC`: parse a duration remainder.  Default 1; a string
with a slash is split into numerator (default 1) and denominator
(default 2); otherwise `parseFloat`. -/
def parseDuration (remainder : List Char) : JsNum :=
  if remainder.isEmpty then .fin 1
  else if remainder.contains '/' then
    let parts := remainder.splitOn '/'
    let p0 := parts.headD []
    let p1 := parts.getD 1 []
    let num := if p0.isEmpty then JsNum.fin 1 else jsParseFloat p0
    let den := if p1.isEmpty then JsNum.fin 2 else jsParseFloat p1
    jsDiv num den
  else jsParseFloat remainder

/-- Step D of `parseABC`: convert a flat accidental to the enharmonic
sharp-or-natural spelling (the game engine has only sharp keys). -/
def flatConvert (noteName accidental : String) (octave : ℤ) : String × String × ℤ :=
  if accidental = "b" ∧ noteName ≠ "REST" then
    if noteName = "D" then ("C", "#", octave)
    else if noteName = "E" then ("D", "#", octave)
    else if noteName = "G" then ("F", "#", octave)
    else if noteName = "A" then ("G", "#", octave)
    else if noteName = "B" then ("A", "#", octave)
    else if noteName = "C" then ("B", "", octave - 1)
    else if noteName = "F" then ("E", "", octave)
    else (noteName, accidental, octave)
  else (noteName, accidental, octave)

/-- Parse one token of `parseABC` (steps A–E of the source). -/
def parseToken (token : List Char) : NoteEv :=
  -- A. accidental ("=" is stripped in the source but can never start a token)
  let step1 : String × List Char :=
    match token with
    | [] => ("", [])
    | c :: rest =>
      if c = '^' then ("#", rest)
      else if c = '_' then ("b", rest)
      else if c = '=' then ("", rest)
      else ("", token)
  let accidental := step1.1
  let rem1 := step1.2
  -- B. note name and octave
  let baseNoteChar : Option Char := rem1.head?
  let rem2 := rem1.tail
  let noteName0 : String :=
    match baseNoteChar with
    | some c => String.singleton c.toUpper
    | none => ""
  let isRest : Bool := baseNoteChar = some 'z'
  let noteName1 := if isRest then "REST" else noteName0
  let isLower : Bool :=
    match baseNoteChar with
    | some c => c.toLower = c
    | none => true
  -- octave marks are consumed only in the non-rest branch of the source
  let afterOct : ℤ × List Char :=
    if isRest then (4, rem2)
    else
      let commas := rem2.takeWhile (fun c => c = ',')
      let r1 := rem2.dropWhile (fun c => c = ',')
      let apos := r1.takeWhile (fun c => c = apoChar)
      let r2 := r1.dropWhile (fun c => c = apoChar)
      ((if isLower then (5 : ℤ) else 4) - commas.length + apos.length, r2)
  let octave := afterOct.1
  -- C. duration
  let duration := parseDuration afterOct.2
  -- D. flats to sharps
  let conv := flatConvert noteName1 accidental octave
  -- E. game id
  let finalId : Option String :=
    if conv.1 ≠ "REST" then some (conv.1 ++ conv.2.1 ++ toString conv.2.2)
    else none
  ⟨finalId, duration⟩

/-- The function `parseABC` of `src/parser.js`: tokenize and parse every token. -/
def parseABC (s : String) : List NoteEv := (tokenize s.toList).map parseToken

/-! ## The MIDI converter (encoder side) -/

/-- JavaScript `Math.round`: nearest integer, halves toward positive
infinity. -/
def jsRound (q : ℚ) : ℤ := ⌊q + 1 / 2⌋

/-- An event of the converter's intermediate list: a note with a MIDI pitch
or a rest, with a duration in eighth-note units. -/
inductive AbcEvent where
  | note (midi : ℤ) (duration : ℚ)
  | rest (duration : ℚ)
deriving DecidableEq, Repr

def AbcEvent.duration : AbcEvent → ℚ
  | .note _ d => d
  | .rest d => d

/-- The function `formatAbcDuration` of the converter: quantize to quarter units and
render an integer, a half (with the URL-safe fraction mark) or a quarter
duration; `none` for non-positive step counts. -/
def formatAbcDuration (duration : ℚ) : Option String :=
  let steps := jsRound (duration * 4)
  if steps ≤ 0 then none
  else if steps = 4 then some ""
  else if steps % 4 = 0 then some (toString (steps / 4))
  else if steps % 2 = 0 then
    let num := steps / 2
    if num = 1 then some "~" else some (toString num ++ "~2")
  else
    if steps = 1 then some "~4" else some (toString steps ++ "~4")

/-- The `while (currentMidi < minMidi) currentMidi += 12` loop of the
converter, fuel-indexed; the fuel used by `clipPitch` always suffices. -/
def shiftUp (minMidi : ℤ) : ℕ → ℤ → ℤ
  | 0, m => m
  | fuel + 1, m => if m < minMidi then shiftUp minMidi fuel (m + 12) else m

/-- The `while (currentMidi > maxMidi) currentMidi -= 12` loop of the
converter, fuel-indexed. -/
def shiftDown (maxMidi : ℤ) : ℕ → ℤ → ℤ
  | 0, m => m
  | fuel + 1, m => if maxMidi < m then shiftDown maxMidi fuel (m - 12) else m

/-- Octave clipping of the converter: shift up below the minimum, then down
above the maximum. -/
def clipPitch (minMidi maxMidi midi : ℤ) : ℤ :=
  let up := shiftUp minMidi (minMidi - midi).toNat midi
  shiftDown maxMidi (up - maxMidi).toNat up

/-- The flat-name table of `getABCNoteName`. -/
def flatNames : List String :=
  ["C", "_D", "D", "_E", "E", "F", "_G", "G", "_A", "A", "_B", "B"]

/-- Character-wise lower-casing, the behaviour of JavaScript
`toLowerCase` on the ASCII note names. -/
def strToLower (s : String) : String := String.mk (s.data.map Char.toLower)

/-- The function `getABCNoteName` of the converter.  `midi.tmod` matches the JavaScript
remainder and `Int.fdiv` matches `Math.floor` of the division; all call
sites pass pitches already clipped into a non-negative range. -/
def getABCNoteName (midi : ℤ) : String :=
  let noteIndex := midi.tmod 12
  let octaveIndex := midi.fdiv 12 - 1
  let baseName := flatNames.getD noteIndex.toNat ""
  if octaveIndex = 4 then baseName
  else if octaveIndex = 5 then strToLower baseName
  else if octaveIndex < 4 then
    baseName ++ String.mk (List.replicate (4 - octaveIndex).toNat '.')
  else
    strToLower baseName ++ String.mk (List.replicate (octaveIndex - 5).toNat apoChar)

/-- One step of the ABC-string generation loop of `convertTrackToAbc`:
events whose duration formats to `null` are skipped, rests render as `z`
plus the duration, notes are octave-clipped and named. -/
def abcStep (minMidi maxMidi : ℤ) (acc : String) (event : AbcEvent) : String :=
  match formatAbcDuration event.duration with
  | none => acc
  | some durationString =>
    match event with
    | .rest _ => acc ++ "z" ++ durationString
    | .note midi _ =>
      acc ++ getABCNoteName (clipPitch minMidi maxMidi midi) ++ durationString

/-- The ABC-string generation loop of `convertTrackToAbc` (its
`events.forEach` accumulating `abcString`). -/
def convertEventsToAbc (events : List AbcEvent) (minMidi maxMidi : ℤ) : String :=
  events.foldl (abcStep minMidi maxMidi) ""

/-! ## The duration-multiplier search of the integer-quantizing converter -/

/-- The `events.every` check of the multiplier search: every duration
scaled by `m` is within 0.05 of its nearest integer. -/
def isCleanMult (events : List AbcEvent) (m : ℕ) : Bool :=
  events.all fun e =>
    let scaled := e.duration * m
    let rounded := jsRound scaled
    |scaled - (rounded : ℚ)| < 1 / 20

/-- The multiplier search: the `for (let m = 1; m <= 4; m++)` loop with its
`break` on the first clean multiplier, unrolled; the default is 4. -/
def bestMultiplier (events : List AbcEvent) : ℕ :=
  if isCleanMult events 1 then 1
  else if isCleanMult events 2 then 2
  else if isCleanMult events 3 then 3
  else if isCleanMult events 4 then 4
  else 4

/-! ## Chord reduction of `convertTrackToAbc` -/

/-- A raw MIDI note as consumed by `convertTrackToAbc`. -/
structure MidiNote where
  ticks : ℕ
  midi : ℤ
  durationTicks : ℕ
deriving DecidableEq, Repr

/-- The sort comparator of `convertTrackToAbc`: ascending start time; for
equal start times, ascending pitch for the accompaniment role and
descending pitch for the melody role. -/
def noteCmp (isAccompaniment : Bool) (a b : MidiNote) : ℤ :=
  if a.ticks = b.ticks then
    (if isAccompaniment then a.midi - b.midi else b.midi - a.midi)
  else (a.ticks : ℤ) - (b.ticks : ℤ)

def noteLe (isAccompaniment : Bool) (a b : MidiNote) : Bool :=
  noteCmp isAccompaniment a b ≤ 0

/-- The `track.notes.sort(...)` call: JavaScript array sort is stable, and
a stable sort for a total preorder is unique, so `mergeSort` computes it. -/
def sortNotes (isAccompaniment : Bool) (notes : List MidiNote) : List MidiNote :=
  notes.mergeSort (noteLe isAccompaniment)

/-- The chord-reduction filter: keep a note only when its start tick
differs from the last kept start tick (initially −1). -/
def dedupTicks : ℤ → List MidiNote → List MidiNote
  | _, [] => []
  | lastTick, n :: rest =>
    if |(n.ticks : ℤ) - lastTick| < 1 then dedupTicks lastTick rest
    else n :: dedupTicks (n.ticks : ℤ) rest

/-- Sort plus chord reduction (lines 351–368 of `convertTrackToAbc`). -/
def reduceChords (isAccompaniment : Bool) (notes : List MidiNote) : List MidiNote :=
  dedupTicks (-1) (sortNotes isAccompaniment notes)

/-! ## Game state of `src/main.js` -/

/-- An in-flight note sprite as used by the ticker and `pressKey`: vertical
position, target key index (lane), the `active` flag and the accompaniment
flag. -/
structure GNote where
  y : ℚ
  targetIndex : ℕ
  active : Bool
  isAccompaniment : Bool
deriving DecidableEq, Repr

def NOTE_HEIGHT : ℚ := 40

def HIT_ZONE : ℚ := 2 * NOTE_HEIGHT

def CHORD_TOLERANCE : ℚ := 10

/-- One step of the running-minimum loops of the ticker and `pressKey`:
a selected note with a strictly smaller measure replaces the minimum
(`none` plays the role of the initial `Infinity`). -/
def minStep (sel : GNote → Bool) (f : GNote → ℚ) (acc : Option ℚ) (n : GNote) :
    Option ℚ :=
  if sel n then
    match acc with
    | none => some (f n)
    | some m => if f n < m then some (f n) else some m
  else acc

/-- The `for (const n of activeNotes) if (sel) if (f n < min) min = f n`
pattern: minimum of `f` over the selected notes, `none` when no note is
selected (the JavaScript minimum stays `Infinity`). -/
def minFold (sel : GNote → Bool) (f : GNote → ℚ) (notes : List GNote) : Option ℚ :=
  notes.foldl (minStep sel f) none

/-- The effective-delta computation at the top of the game ticker
(wait mode): clamp the raw delta so that no interactive note can cross the
stop line `hitLineY - NOTE_HEIGHT` this tick.  When the minimum distance
stays `Infinity` (no interactive note) the clamp comparison fails in the
source and the raw delta is kept. -/
def effectiveDelta (isWaitMode isDemoPlaying : Bool) (speed hitLineY : ℚ)
    (notes : List GNote) (rawDelta : ℚ) : ℚ :=
  if isWaitMode && !isDemoPlaying && !notes.isEmpty then
    let stopY := hitLineY - NOTE_HEIGHT
    match minFold (fun n => !n.isAccompaniment) (fun n => stopY - n.y) notes with
    | none => rawDelta
    | some minDistance =>
      let minDistance := if minDistance < 0 then 0 else minDistance
      let maxAllowedDelta := minDistance / speed
      if maxAllowedDelta < rawDelta then maxAllowedDelta else rawDelta
  else rawDelta

/-- The `n.y += SPEED * effectiveDelta` motion update of the ticker. -/
def advanceNotes (speed delta : ℚ) (notes : List GNote) : List GNote :=
  notes.map fun n => { n with y := n.y + speed * delta }

/-- The candidate test of the `pressKey` selection loop: right lane,
active, interactive, inside the hit zone and within chord tolerance of the
global wavefront `g`. -/
def candidate (lane : ℕ) (hitLineY g : ℚ) (n : GNote) : Bool :=
  n.targetIndex == lane && n.active && !n.isAccompaniment &&
    |n.y - hitLineY| < HIT_ZONE && |n.y - hitLineY| ≤ g + CHORD_TOLERANCE

/-- The `for (let i = 0; ...)` selection loop of `pressKey`, carrying the
running index and the best (index, distance) seen so far; a strictly
smaller distance replaces the best. -/
def scanLoop (lane : ℕ) (hitLineY g : ℚ) :
    List GNote → ℕ → Option (ℕ × ℚ) → Option (ℕ × ℚ)
  | [], _, best => best
  | n :: rest, i, best =>
    let dist := |n.y - hitLineY|
    let best2 :=
      if candidate lane hitLineY g n then
        match best with
        | none => some (i, dist)
        | some (j, bd) => if dist < bd then some (i, dist) else some (j, bd)
      else best
    scanLoop lane hitLineY g rest (i + 1) best2

/-- The judgment core of `pressKey` (lines 1521–1552): compute the global
minimum distance over active interactive notes, refuse when it exceeds the
hit zone, otherwise pick the closest candidate in the pressed lane.
Returns the index of the note to remove, if any. -/
def pressKeyJudge (lane : ℕ) (hitLineY : ℚ) (notes : List GNote) : Option ℕ :=
  match minFold (fun n => n.active && !n.isAccompaniment)
      (fun n => |n.y - hitLineY|) notes with
  | none => none
  | some minGlobalDistance =>
    if HIT_ZONE < minGlobalDistance then none
    else (scanLoop lane hitLineY minGlobalDistance notes 0 none).map Prod.fst

/-- The effect of `pressKey` on the in-flight list: splice out the hit
note, if any. -/
def pressKeyResult (lane : ℕ) (hitLineY : ℚ) (notes : List GNote) : List GNote :=
  match pressKeyJudge lane hitLineY notes with
  | none => notes
  | some i => notes.eraseIdx i

/-! ## The melody sequencer of the game ticker -/

/-- A decoded event as consumed by the sequencer: whether the event spawns
a note (`noteData.id !== null`) and its duration. -/
structure SeqEv where
  isNote : Bool
  duration : ℚ
deriving DecidableEq, Repr

/-- The per-track playhead state: event index, elapsed-time accumulator
(`timeSinceLastNote`) and interval to the next event
(`timeUntilNextNote`). -/
structure SeqState where
  idx : ℕ
  acc : ℚ
  tun : ℚ
deriving DecidableEq, Repr

/-- The `while (timeSinceLastNote >= timeUntilNextNote && melodyIndex <
parsedMelody.length)` consumption loop: subtract the consumed interval,
emit a spawn (index, accumulator) for notes, recompute the interval from
the event's duration with the positive floor 0.1.  Fuel-indexed; the fuel
used by `sequencerTick` always suffices because every iteration advances
the index. -/
def seqLoop (track : List SeqEv) (framesPerBeat : ℚ) :
    ℕ → SeqState → SeqState × List (ℕ × ℚ)
  | 0, s => (s, [])
  | fuel + 1, s =>
    if h : s.tun ≤ s.acc ∧ s.idx < track.length then
      let acc2 := s.acc - s.tun
      let ev := track.get ⟨s.idx, h.2⟩
      let tun2 := ev.duration * framesPerBeat
      let tun3 := if tun2 ≤ 0 then 1 / 10 else tun2
      let r := seqLoop track framesPerBeat fuel ⟨s.idx + 1, acc2, tun3⟩
      (r.1, (if ev.isNote then [(s.idx, acc2)] else []) ++ r.2)
    else (s, [])

/-- One ticker step of the melody sequencer (lines 1782–1798): if the
track is nonempty and unfinished, accumulate the effective delta and run
the consumption loop.  Returns the new playhead and the spawn
instructions, each an (event index, timing offset) pair. -/
def sequencerTick (track : List SeqEv) (framesPerBeat delta : ℚ)
    (s : SeqState) : SeqState × List (ℕ × ℚ) :=
  if 0 < track.length ∧ s.idx < track.length then
    seqLoop track framesPerBeat track.length { s with acc := s.acc + delta }
  else (s, [])

/-- The seven upper-case note letters. -/
def noteLetters : List String := ["A", "B", "C", "D", "E", "F", "G"]

/-- Shape of every token the tokenizer can produce: an optional accidental
character followed by a note character and arbitrary trailing mark or
duration characters. -/
def TokShape (tok : List Char) : Prop :=
  ∃ a c rest, (a = [] ∨ a = ['^'] ∨ a = ['_']) ∧ isNoteChar c = true ∧
    tok = a ++ c :: rest

/-- A well-formed game id: absent (rest), or a letter A–G, an optional
sharp, and an integer octave.  In particular no flat spelling occurs. -/
def IdOk (o : Option String) : Prop :=
  o = none ∨ ∃ L acc oct, L ∈ noteLetters ∧ (acc = "" ∨ acc = "#") ∧
    o = some (L ++ acc ++ toString (oct : ℤ))

/-- A duration the parser can produce: NaN, Infinity, or a non-negative
rational. -/
def DurOk (d : JsNum) : Prop :=
  d = .nan ∨ d = .inf ∨ ∃ q : ℚ, d = .fin q ∧ 0 ≤ q

/-- Invariant of the `pressKey` selection loop after scanning the first
`i` notes: `none` means no candidate seen; `some (j, d0)` means `j` is a
candidate at distance `d0`, minimal among the candidates seen. -/
def ScanInv (lane : ℕ) (hit g : ℚ) (notes : List GNote) (i : ℕ) :
    Option (ℕ × ℚ) → Prop
  | none => ∀ k, k < i → ∀ hk : k < notes.length,
      candidate lane hit g (notes.get ⟨k, hk⟩) = false
  | some (j, d0) => ∃ hj : j < notes.length, j < i ∧
      candidate lane hit g (notes.get ⟨j, hj⟩) = true ∧
      d0 = |(notes.get ⟨j, hj⟩).y - hit| ∧
      ∀ k, k < i → ∀ hk : k < notes.length,
        candidate lane hit g (notes.get ⟨k, hk⟩) = true →
        d0 ≤ |(notes.get ⟨k, hk⟩).y - hit|

/-- The interval consumed at the `j`-th iteration of a consumption loop
started in state `(idx, tun0)`: the pending interval for the first
iteration, then each consumed event's duration times the frame rate,
floored at 0.1. -/
def intervalAt (track : List SeqEv) (fpb tun0 : ℚ) (idx : ℕ) : ℕ → ℚ
  | 0 => tun0
  | j + 1 =>
    let d := (track.getD (idx + j) ⟨false, 0⟩).duration * fpb
    if d ≤ 0 then 1 / 10 else d

/-- Sum of the first `k` consumed intervals. -/
def sumIntervals (track : List SeqEv) (fpb tun0 : ℚ) (idx : ℕ) : ℕ → ℚ
  | 0 => 0
  | k + 1 => sumIntervals track fpb tun0 idx k + intervalAt track fpb tun0 idx k

/-! ## Octave clipping (claim C8) -/

lemma shiftUp_bounds (minM : ℤ) :
    ∀ (fuel : ℕ) (m : ℤ), minM - m ≤ 12 * fuel →
      (minM ≤ shiftUp minM fuel m ∧
        (shiftUp minM fuel m = m ∨ shiftUp minM fuel m < minM + 12)) := by
  intro fuel
  induction fuel with
  | zero =>
    intro m hm
    simp only [shiftUp]
    constructor
    · omega
    · exact Or.inl (by trivial)
  | succ fuel ih =>
    intro m hm
    simp only [shiftUp]
    by_cases h : m < minM
    · simp only [h, if_true]
      obtain ⟨h1, h2⟩ := ih (m + 12) (by omega)
      refine ⟨h1, ?_⟩
      rcases h2 with h2 | h2
      · exact Or.inr (by omega)
      · exact Or.inr h2
    · simp only [h, if_false]
      exact ⟨by omega, Or.inl (by trivial)⟩

lemma shiftUp_modeq (minM : ℤ) :
    ∀ (fuel : ℕ) (m : ℤ), shiftUp minM fuel m ≡ m [ZMOD 12] := by
  intro fuel
  induction fuel with
  | zero => intro m; rfl
  | succ fuel ih =>
    intro m
    simp only [shiftUp]
    by_cases h : m < minM
    · simp only [h, if_true]
      calc shiftUp minM fuel (m + 12) ≡ m + 12 [ZMOD 12] := ih (m + 12)
        _ ≡ m [ZMOD 12] := by
            unfold Int.ModEq
            omega
    · simp only [h, if_false]
      exact Int.ModEq.refl m

lemma shiftDown_bounds (maxM : ℤ) :
    ∀ (fuel : ℕ) (m : ℤ), m - maxM ≤ 12 * fuel →
      (shiftDown maxM fuel m ≤ maxM ∧
        (shiftDown maxM fuel m = m ∨ maxM - 12 < shiftDown maxM fuel m)) := by
  intro fuel
  induction fuel with
  | zero =>
    intro m hm
    simp only [shiftDown]
    exact ⟨by omega, Or.inl (by trivial)⟩
  | succ fuel ih =>
    intro m hm
    simp only [shiftDown]
    by_cases h : maxM < m
    · simp only [h, if_true]
      obtain ⟨h1, h2⟩ := ih (m - 12) (by omega)
      refine ⟨h1, ?_⟩
      rcases h2 with h2 | h2
      · exact Or.inr (by omega)
      · exact Or.inr h2
    · simp only [h, if_false]
      exact ⟨by omega, Or.inl (by trivial)⟩

lemma shiftDown_modeq (maxM : ℤ) :
    ∀ (fuel : ℕ) (m : ℤ), shiftDown maxM fuel m ≡ m [ZMOD 12] := by
  intro fuel
  induction fuel with
  | zero => intro m; rfl
  | succ fuel ih =>
    intro m
    simp only [shiftDown]
    by_cases h : maxM < m
    · simp only [h, if_true]
      calc shiftDown maxM fuel (m - 12) ≡ m - 12 [ZMOD 12] := ih (m - 12)
        _ ≡ m [ZMOD 12] := by
            unfold Int.ModEq
            omega
    · simp only [h, if_false]
      exact Int.ModEq.refl m

/-- C8: for every pitch and every clipping range spanning at least 11
semitones, the converter's repeated ±12 shifting lands inside the range
and preserves the pitch class; the function is total, so no pitch is ever
rejected or dropped. -/
theorem clipPitch_spec (minM maxM midi : ℤ) (hrange : 11 ≤ maxM - minM) :
    minM ≤ clipPitch minM maxM midi ∧
    clipPitch minM maxM midi ≤ maxM ∧
    clipPitch minM maxM midi ≡ midi [ZMOD 12] := by
  obtain ⟨hu1, hu2⟩ := shiftUp_bounds minM (minM - midi).toNat midi (by omega)
  set u := shiftUp minM (minM - midi).toNat midi with hu
  obtain ⟨hd1, hd2⟩ := shiftDown_bounds maxM (u - maxM).toNat u (by omega)
  have hq : clipPitch minM maxM midi = shiftDown maxM (u - maxM).toNat u := rfl
  rw [hq]
  refine ⟨?_, hd1, ?_⟩
  · rcases hd2 with h | h
    · rw [h]; exact hu1
    · omega
  · calc shiftDown maxM (u - maxM).toNat u ≡ u [ZMOD 12] :=
        shiftDown_modeq maxM (u - maxM).toNat u
      _ ≡ midi [ZMOD 12] := shiftUp_modeq minM (minM - midi).toNat midi

/-- Witness for C8 at a concrete out-of-range pitch. -/
theorem clipPitch_spec_witness :
    (11 : ℤ) ≤ 76 - 53 ∧
      (53 ≤ clipPitch 53 76 100 ∧ clipPitch 53 76 100 ≤ 76 ∧
        clipPitch 53 76 100 ≡ 100 [ZMOD 12]) :=
  ⟨by decide, clipPitch_spec 53 76 100 (by decide)⟩

/-! ## The duration-multiplier search (claim C2) -/

lemma jsRound_le_dist (x : ℚ) (k : ℤ) : |x - jsRound x| ≤ |x - k| := by
  unfold jsRound
  have h1 : ((⌊x + 1 / 2⌋ : ℤ) : ℚ) ≤ x + 1 / 2 := Int.floor_le _
  have h2 : x + 1 / 2 < (⌊x + 1 / 2⌋ : ℤ) + 1 := Int.lt_floor_add_one _
  rcases lt_trichotomy k ⌊x + 1 / 2⌋ with hk | hk | hk
  · have hk2 : (k : ℚ) ≤ (⌊x + 1 / 2⌋ : ℤ) - 1 := by
      have : (k : ℚ) + 1 ≤ ((⌊x + 1 / 2⌋ : ℤ) : ℚ) := by
        exact_mod_cast Int.add_one_le_iff.mpr hk
      linarith
    rw [abs_le]
    constructor
    · have : x - k ≥ 1 / 2 := by linarith
      have habs : |x - k| = x - k := abs_of_nonneg (by linarith)
      rw [habs]; linarith
    · have : x - k ≥ 1 / 2 := by linarith
      have habs : |x - k| = x - k := abs_of_nonneg (by linarith)
      rw [habs]; linarith
  · rw [hk]
  · have hk2 : ((⌊x + 1 / 2⌋ : ℤ) : ℚ) + 1 ≤ (k : ℚ) := by
      exact_mod_cast Int.add_one_le_iff.mpr hk
    rw [abs_le]
    constructor
    · have : k - x > 1 / 2 := by linarith
      have habs : |x - k| = -(x - k) := abs_of_nonpos (by linarith)
      rw [habs]; linarith
    · have : k - x > 1 / 2 := by linarith
      have habs : |x - k| = -(x - k) := abs_of_nonpos (by linarith)
      rw [habs]; linarith

lemma isCleanMult_iff (events : List AbcEvent) (m : ℕ) :
    isCleanMult events m = true ↔
      ∀ e ∈ events, ∃ k : ℤ, |e.duration * m - (k : ℚ)| < 1 / 20 := by
  unfold isCleanMult
  rw [List.all_eq_true]
  constructor
  · intro h e he
    exact ⟨jsRound (e.duration * m), by simpa using h e he⟩
  · intro h e he
    obtain ⟨k, hk⟩ := h e he
    have := jsRound_le_dist (e.duration * m) k
    simp only [decide_eq_true_eq]
    linarith

/-- C2: the multiplier search returns the smallest `m` in 1..4 for which
every duration scaled by `m` is within 0.05 of an integer, and 4 when no
such `m` exists; in particular the duration sequence 1.5, 0.5 yields 2. -/
theorem bestMultiplier_spec (events : List AbcEvent) :
    (1 ≤ bestMultiplier events ∧ bestMultiplier events ≤ 4) ∧
    (∀ m, 1 ≤ m → m < bestMultiplier events → isCleanMult events m = false) ∧
    (isCleanMult events (bestMultiplier events) = true ∨
      (bestMultiplier events = 4 ∧
        ∀ m, 1 ≤ m → m ≤ 4 → isCleanMult events m = false)) ∧
    (isCleanMult events (bestMultiplier events) = true ↔
      ∀ e ∈ events, ∃ k : ℤ,
        |e.duration * (bestMultiplier events : ℕ) - (k : ℚ)| < 1 / 20) ∧
    bestMultiplier [.note 60 (3 / 2), .note 60 (1 / 2)] = 2 := by
  refine ⟨?_, ?_, ?_, isCleanMult_iff _ _, by decide⟩
  · unfold bestMultiplier
    split_ifs <;> omega
  · intro m h1 h2
    unfold bestMultiplier at h2
    split_ifs at h2 with hc1 hc2 hc3 hc4 <;>
      interval_cases m <;> simp_all
  · unfold bestMultiplier
    split_ifs with hc1 hc2 hc3 hc4
    · exact Or.inl hc1
    · exact Or.inl hc2
    · exact Or.inl hc3
    · exact Or.inl hc4
    · refine Or.inr ⟨rfl, ?_⟩
      intro m h1 h4
      interval_cases m <;> simp_all

/-! ## Running minima (used by wait mode and the hit judgment) -/

lemma minFold_go_none (sel : GNote → Bool) (f : GNote → ℚ) :
    ∀ (l : List GNote) (acc : Option ℚ),
      l.foldl (minStep sel f) acc = none ↔
        acc = none ∧ ∀ n ∈ l, sel n = false := by
  intro l
  induction l with
  | nil => intro acc; simp
  | cons n l ih =>
    intro acc
    rw [List.foldl_cons, ih]
    unfold minStep
    rcases hs : sel n with _ | _
    · simp [hs]
    · rcases acc with _ | m
      · simp [hs]
      · simp [hs]
        split <;> simp

lemma minFold_go_some (sel : GNote → Bool) (f : GNote → ℚ) :
    ∀ (l : List GNote) (acc : Option ℚ) (d : ℚ),
      l.foldl (minStep sel f) acc = some d →
        ((acc = some d ∨ ∃ n ∈ l, sel n = true ∧ f n = d) ∧
          (∀ m, acc = some m → d ≤ m) ∧
          (∀ n ∈ l, sel n = true → d ≤ f n)) := by
  intro l
  induction l with
  | nil =>
    intro acc d h
    simp only [List.foldl_nil] at h
    refine ⟨Or.inl h, ?_, by simp⟩
    intro m hm
    rw [h] at hm
    injection hm with hm
    exact le_of_eq hm
  | cons n l ih =>
    intro acc d h
    rw [List.foldl_cons] at h
    rcases hs : sel n with _ | _
    · have hstep : minStep sel f acc n = acc := by simp [minStep, hs]
      rw [hstep] at h
      obtain ⟨ha, hb, hc⟩ := ih acc d h
      refine ⟨?_, hb, ?_⟩
      · rcases ha with ha | ⟨n2, hn2, hsel2, hf2⟩
        · exact Or.inl ha
        · exact Or.inr ⟨n2, List.mem_cons_of_mem _ hn2, hsel2, hf2⟩
      · intro n2 hn2 hsel2
        rcases List.mem_cons.mp hn2 with rfl | hn2
        · rw [hs] at hsel2; exact absurd hsel2 (by simp)
        · exact hc n2 hn2 hsel2
    · rcases acc with _ | m
      · have hstep : minStep sel f none n = some (f n) := by simp [minStep, hs]
        rw [hstep] at h
        obtain ⟨ha, hb, hc⟩ := ih (some (f n)) d h
        have hdn : d ≤ f n := hb (f n) rfl
        refine ⟨?_, ?_, ?_⟩
        · rcases ha with ha | ⟨n2, hn2, hsel2, hf2⟩
          · injection ha with ha
            exact Or.inr ⟨n, List.mem_cons_self _ _, hs, ha⟩
          · exact Or.inr ⟨n2, List.mem_cons_of_mem _ hn2, hsel2, hf2⟩
        · intro m hm; cases hm
        · intro n2 hn2 hsel2
          rcases List.mem_cons.mp hn2 with rfl | hn2
          · exact hdn
          · exact hc n2 hn2 hsel2
      · by_cases hlt : f n < m
        · have hstep : minStep sel f (some m) n = some (f n) := by
            simp [minStep, hs, hlt]
          rw [hstep] at h
          obtain ⟨ha, hb, hc⟩ := ih (some (f n)) d h
          have hdn : d ≤ f n := hb (f n) rfl
          refine ⟨?_, ?_, ?_⟩
          · rcases ha with ha | ⟨n2, hn2, hsel2, hf2⟩
            · injection ha with ha
              exact Or.inr ⟨n, List.mem_cons_self _ _, hs, ha⟩
            · exact Or.inr ⟨n2, List.mem_cons_of_mem _ hn2, hsel2, hf2⟩
          · intro m2 hm2
            injection hm2 with hm2
            subst hm2
            linarith
          · intro n2 hn2 hsel2
            rcases List.mem_cons.mp hn2 with rfl | hn2
            · exact hdn
            · exact hc n2 hn2 hsel2
        · have hstep : minStep sel f (some m) n = some m := by
            simp [minStep, hs, hlt]
          rw [hstep] at h
          obtain ⟨ha, hb, hc⟩ := ih (some m) d h
          have hdm : d ≤ m := hb m rfl
          refine ⟨?_, ?_, ?_⟩
          · rcases ha with ha | ⟨n2, hn2, hsel2, hf2⟩
            · exact Or.inl ha
            · exact Or.inr ⟨n2, List.mem_cons_of_mem _ hn2, hsel2, hf2⟩
          · intro m2 hm2
            injection hm2 with hm2
            subst hm2
            exact hdm
          · intro n2 hn2 hsel2
            rcases List.mem_cons.mp hn2 with rfl | hn2
            · linarith [not_lt.mp hlt]
            · exact hc n2 hn2 hsel2

lemma minFold_none (sel : GNote → Bool) (f : GNote → ℚ) (notes : List GNote) :
    minFold sel f notes = none ↔ ∀ n ∈ notes, sel n = false := by
  unfold minFold
  rw [minFold_go_none]
  simp

lemma minFold_some (sel : GNote → Bool) (f : GNote → ℚ) (notes : List GNote)
    (d : ℚ) (h : minFold sel f notes = some d) :
    (∃ n ∈ notes, sel n = true ∧ f n = d) ∧
      ∀ n ∈ notes, sel n = true → d ≤ f n := by
  obtain ⟨ha, _, hc⟩ := minFold_go_some sel f notes none d h
  rcases ha with ha | ha
  · cases ha
  · exact ⟨ha, hc⟩

/-! ## Wait mode (claim C3) -/

/-- C3: in wait mode outside demo playback, with at least one interactive
note in flight (minimum signed distance `d` to the stop line), the
effective delta is exactly `min rawDelta (max 0 d / speed)`; it is never
negative, and the uniform motion update cannot push an interactive note
that has not yet reached the stop line past it. -/
theorem effectiveDelta_spec (speed hitLineY rawDelta d : ℚ)
    (notes : List GNote) (hspeed : 0 < speed) (hraw : 0 ≤ rawDelta)
    (hmin : minFold (fun n => !n.isAccompaniment)
      (fun n => (hitLineY - NOTE_HEIGHT) - n.y) notes = some d) :
    effectiveDelta true false speed hitLineY notes rawDelta =
      min rawDelta (max 0 d / speed) ∧
    0 ≤ effectiveDelta true false speed hitLineY notes rawDelta ∧
    ∀ n ∈ advanceNotes speed
        (effectiveDelta true false speed hitLineY notes rawDelta) notes,
      n.isAccompaniment = false →
      0 ≤ (hitLineY - NOTE_HEIGHT) -
          (n.y - speed * effectiveDelta true false speed hitLineY notes rawDelta) →
      0 ≤ (hitLineY - NOTE_HEIGHT) - n.y := by
  obtain ⟨⟨n0, hn0, hsel0, hf0⟩, hlb⟩ := minFold_some _ _ _ _ hmin
  have hne : notes ≠ [] := by
    intro hnil
    rw [hnil] at hn0
    cases hn0
  have heq : effectiveDelta true false speed hitLineY notes rawDelta =
      min rawDelta (max 0 d / speed) := by
    unfold effectiveDelta
    rw [if_pos (by simp [hne])]
    simp only [hmin]
    have hmaxd : (if d < 0 then (0 : ℚ) else d) = max 0 d := by
      rcases lt_or_le d 0 with h | h
      · rw [if_pos h, max_eq_left (le_of_lt h)]
      · rw [if_neg (not_lt.mpr h), max_eq_right h]
    rw [hmaxd]
    rcases lt_or_le (max 0 d / speed) rawDelta with h | h
    · rw [if_pos h, min_eq_right (le_of_lt h)]
    · rw [if_neg (not_lt.mpr h), min_eq_left h]
  have hnonneg : 0 ≤ effectiveDelta true false speed hitLineY notes rawDelta := by
    rw [heq]
    have : 0 ≤ max 0 d / speed := div_nonneg (le_max_left 0 d) (le_of_lt hspeed)
    exact le_min hraw this
  refine ⟨heq, hnonneg, ?_⟩
  intro n hn hacc hdist
  obtain ⟨n1, hn1, hn1eq⟩ := List.mem_map.mp hn
  have hy : n.y = n1.y + speed *
      effectiveDelta true false speed hitLineY notes rawDelta := by
    rw [← hn1eq]
  have hacc1 : n1.isAccompaniment = false := by
    rw [← hn1eq] at hacc
    exact hacc
  have hlb1 : d ≤ (hitLineY - NOTE_HEIGHT) - n1.y :=
    hlb n1 hn1 (by simp [hacc1])
  have hyo : n.y - speed *
      effectiveDelta true false speed hitLineY notes rawDelta = n1.y := by
    rw [hy]; ring
  rw [hyo] at hdist
  have hmd : max 0 d ≤ (hitLineY - NOTE_HEIGHT) - n1.y := max_le hdist hlb1
  have hle : effectiveDelta true false speed hitLineY notes rawDelta ≤
      max 0 d / speed := by
    rw [heq]; exact min_le_right _ _
  have hsd : speed * effectiveDelta true false speed hitLineY notes rawDelta ≤
      max 0 d := by
    have h2 : speed * effectiveDelta true false speed hitLineY notes rawDelta ≤
        speed * (max 0 d / speed) :=
      mul_le_mul_of_nonneg_left hle (le_of_lt hspeed)
    rwa [mul_div_cancel₀ _ (ne_of_gt hspeed)] at h2
  rw [hy]
  linarith

/-- Witness for C3 at a concrete tick: one interactive note 60 units above
the stop line, speed 4, raw delta 100. -/
theorem effectiveDelta_spec_witness :
    (0 : ℚ) < 4 ∧ (0 : ℚ) ≤ 100 ∧
      minFold (fun n => !n.isAccompaniment)
        (fun n => ((200 : ℚ) - NOTE_HEIGHT) - n.y) [⟨100, 0, true, false⟩] =
        some 60 ∧
      effectiveDelta true false 4 200 [⟨100, 0, true, false⟩] 100 =
        min 100 (max 0 60 / 4) :=
  ⟨by norm_num, by norm_num, by decide,
    (effectiveDelta_spec 4 200 100 60 [⟨100, 0, true, false⟩] (by norm_num)
      (by norm_num) (by decide)).1⟩

/-! ## The hit judgment (claim C4) -/

lemma scanLoop_inv (lane : ℕ) (hit g : ℚ) (notes : List GNote) :
    ∀ (l : List GNote) (i : ℕ) (best : Option (ℕ × ℚ)),
      notes.drop i = l →
      ScanInv lane hit g notes i best →
      ScanInv lane hit g notes notes.length (scanLoop lane hit g l i best) := by
  intro l
  induction l with
  | nil =>
    intro i best hdrop hinv
    have hle : notes.length ≤ i := by
      by_contra hlt
      push_neg at hlt
      have := List.drop_eq_getElem_cons hlt
      rw [hdrop] at this
      cases this
    show ScanInv lane hit g notes notes.length best
    rcases best with _ | ⟨j, d0⟩
    · intro k hk hk2
      exact hinv k (by omega) hk2
    · obtain ⟨hj, _, hcand, hd0, hmin⟩ := hinv
      exact ⟨hj, hj, hcand, hd0, fun k hk hk2 hc => hmin k (by omega) hk2 hc⟩
  | cons n l ih =>
    intro i best hdrop hinv
    have hi : i < notes.length := by
      by_contra hge
      push_neg at hge
      rw [List.drop_eq_nil_of_le hge] at hdrop
      cases hdrop
    have hcons := List.drop_eq_getElem_cons hi
    rw [hdrop] at hcons
    injection hcons with hn hrest
    have hget : notes.get ⟨i, hi⟩ = n := by
      rw [List.get_eq_getElem]
      exact hn.symm
    rcases hc : candidate lane hit g n with _ | _
    · have hstep : scanLoop lane hit g (n :: l) i best =
          scanLoop lane hit g l (i + 1) best := by
        simp [scanLoop, hc]
      rw [hstep]
      apply ih (i + 1) _ hrest.symm
      rcases best with _ | ⟨j, d0⟩
      · intro k hk hk2
        rcases Nat.lt_succ_iff_lt_or_eq.mp hk with hk | rfl
        · exact hinv k hk hk2
        · rw [hget]; exact hc
      · obtain ⟨hj, hji, hcand, hd0, hmin⟩ := hinv
        refine ⟨hj, by omega, hcand, hd0, ?_⟩
        intro k hk hk2 hck
        rcases Nat.lt_succ_iff_lt_or_eq.mp hk with hk | rfl
        · exact hmin k hk hk2 hck
        · rw [hget] at hck
          rw [hck] at hc
          cases hc
    · rcases best with _ | ⟨j, d0⟩
      · have hstep : scanLoop lane hit g (n :: l) i none =
            scanLoop lane hit g l (i + 1) (some (i, |n.y - hit|)) := by
          simp [scanLoop, hc]
        rw [hstep]
        apply ih (i + 1) _ hrest.symm
        refine ⟨hi, by omega, by rw [hget]; exact hc, by rw [hget], ?_⟩
        intro k hk hk2 hck
        rcases Nat.lt_succ_iff_lt_or_eq.mp hk with hk | rfl
        · have := hinv k hk hk2
          rw [hck] at this
          cases this
        · rw [hget]
      · obtain ⟨hj, hji, hcand, hd0, hmin⟩ := hinv
        by_cases hlt : |n.y - hit| < d0
        · have hstep : scanLoop lane hit g (n :: l) i (some (j, d0)) =
              scanLoop lane hit g l (i + 1) (some (i, |n.y - hit|)) := by
            simp [scanLoop, hc, hlt]
          rw [hstep]
          apply ih (i + 1) _ hrest.symm
          refine ⟨hi, by omega, by rw [hget]; exact hc, by rw [hget], ?_⟩
          intro k hk hk2 hck
          rcases Nat.lt_succ_iff_lt_or_eq.mp hk with hk | rfl
          · have := hmin k hk hk2 hck
            linarith
          · rw [hget]
        · have hstep : scanLoop lane hit g (n :: l) i (some (j, d0)) =
              scanLoop lane hit g l (i + 1) (some (j, d0)) := by
            simp [scanLoop, hc, hlt]
          rw [hstep]
          apply ih (i + 1) _ hrest.symm
          refine ⟨hj, by omega, hcand, hd0, ?_⟩
          intro k hk hk2 hck
          rcases Nat.lt_succ_iff_lt_or_eq.mp hk with hk | rfl
          · exact hmin k hk hk2 hck
          · rw [hget]
            linarith [not_lt.mp hlt]

/-- C4: if the global minimum distance over interactive notes exceeds the
hit zone (or no interactive note exists), a key press removes nothing;
otherwise exactly the closest candidate of the pressed lane is removed,
and some note is removed whenever a candidate exists.  Two notes at the
same wavefront in different lanes are hit independently. -/
theorem pressKey_spec (lane : ℕ) (hit : ℚ) (notes : List GNote) :
    (minFold (fun n => n.active && !n.isAccompaniment)
        (fun n => |n.y - hit|) notes = none →
      pressKeyResult lane hit notes = notes) ∧
    (∀ g, minFold (fun n => n.active && !n.isAccompaniment)
        (fun n => |n.y - hit|) notes = some g → HIT_ZONE < g →
      pressKeyResult lane hit notes = notes) ∧
    (∀ i, pressKeyJudge lane hit notes = some i →
      ∃ g, minFold (fun n => n.active && !n.isAccompaniment)
          (fun n => |n.y - hit|) notes = some g ∧ g ≤ HIT_ZONE ∧
        ∃ hi : i < notes.length,
          candidate lane hit g (notes.get ⟨i, hi⟩) = true ∧
          (∀ k, ∀ hk : k < notes.length,
            candidate lane hit g (notes.get ⟨k, hk⟩) = true →
            |(notes.get ⟨i, hi⟩).y - hit| ≤ |(notes.get ⟨k, hk⟩).y - hit|) ∧
          pressKeyResult lane hit notes = notes.eraseIdx i) ∧
    (∀ g, minFold (fun n => n.active && !n.isAccompaniment)
        (fun n => |n.y - hit|) notes = some g → g ≤ HIT_ZONE →
      (∃ n ∈ notes, candidate lane hit g n = true) →
      ∃ i, pressKeyJudge lane hit notes = some i) ∧
    (pressKeyResult 0 200 [⟨200, 0, true, false⟩, ⟨200, 1, true, false⟩] =
        [⟨200, 1, true, false⟩] ∧
      pressKeyResult 1 200 [⟨200, 0, true, false⟩, ⟨200, 1, true, false⟩] =
        [⟨200, 0, true, false⟩]) := by
  refine ⟨?_, ?_, ?_, ?_, by decide, by decide⟩
  · intro hnone
    unfold pressKeyResult pressKeyJudge
    rw [hnone]
  · intro g hg hgt
    unfold pressKeyResult pressKeyJudge
    rw [hg]
    simp only [if_pos hgt]
  · intro i hjudge
    unfold pressKeyJudge at hjudge
    rcases hmin : minFold (fun n => n.active && !n.isAccompaniment)
        (fun n => |n.y - hit|) notes with _ | g
    · rw [hmin] at hjudge; cases hjudge
    · rw [hmin] at hjudge
      by_cases hgt : HIT_ZONE < g
      · simp only [if_pos hgt] at hjudge; cases hjudge
      · simp only [if_neg hgt] at hjudge
        rcases hscan : scanLoop lane hit g notes 0 none with _ | ⟨j, d0⟩
        · rw [hscan] at hjudge; cases hjudge
        · rw [hscan] at hjudge
          injection hjudge with hjudge
          subst hjudge
          have hinv := scanLoop_inv lane hit g notes notes 0 none rfl
            (by intro k hk; omega)
          rw [hscan] at hinv
          obtain ⟨hj, _, hcand, hd0, hminl⟩ := hinv
          refine ⟨g, rfl, not_lt.mp hgt, hj, hcand, ?_, ?_⟩
          · intro k hk hck
            have := hminl k hk hk hck
            rw [hd0] at this
            exact this
          · unfold pressKeyResult pressKeyJudge
            rw [hmin]
            simp only [if_neg hgt]
            rw [hscan]
            rfl
  · intro g hg hle ⟨n0, hn0, hc0⟩
    unfold pressKeyJudge
    rw [hg]
    simp only [if_neg (not_lt.mpr hle)]
    rcases hscan : scanLoop lane hit g notes 0 none with _ | ⟨j, d0⟩
    · exfalso
      have hinv := scanLoop_inv lane hit g notes notes 0 none rfl
        (by intro k hk; omega)
      rw [hscan] at hinv
      obtain ⟨k, hk⟩ := List.mem_iff_get.mp hn0
      have := hinv k.1 k.2 k.2
      rw [hk] at this
      · rw [hc0] at this; cases this
    · exact ⟨j, rfl⟩

/-! ## The sequencer loop (claim C6) -/

lemma intervalAt_shift (track : List SeqEv) (fpb tun0 : ℚ) (idx : ℕ) (j : ℕ) :
    intervalAt track fpb tun0 idx (j + 1) =
      intervalAt track fpb (intervalAt track fpb tun0 idx 1) (idx + 1) j := by
  cases j with
  | zero => rfl
  | succ jj =>
    show (let d := (track.getD (idx + (jj + 1)) ⟨false, 0⟩).duration * fpb
          if d ≤ 0 then 1 / 10 else d) =
        (let d := (track.getD (idx + 1 + jj) ⟨false, 0⟩).duration * fpb
         if d ≤ 0 then 1 / 10 else d)
    have : idx + (jj + 1) = idx + 1 + jj := by omega
    rw [this]

lemma sumIntervals_shift (track : List SeqEv) (fpb tun0 : ℚ) (idx : ℕ) :
    ∀ k, sumIntervals track fpb tun0 idx (k + 1) =
      tun0 + sumIntervals track fpb (intervalAt track fpb tun0 idx 1) (idx + 1) k := by
  intro k
  induction k with
  | zero => simp [sumIntervals, intervalAt]
  | succ k ih =>
    calc sumIntervals track fpb tun0 idx (k + 1 + 1)
        = sumIntervals track fpb tun0 idx (k + 1) +
            intervalAt track fpb tun0 idx (k + 1) := rfl
      _ = sumIntervals track fpb tun0 idx (k + 1) +
            intervalAt track fpb (intervalAt track fpb tun0 idx 1) (idx + 1) k := by
          rw [intervalAt_shift track fpb tun0 idx k]
      _ = (tun0 + sumIntervals track fpb (intervalAt track fpb tun0 idx 1)
              (idx + 1) k) +
            intervalAt track fpb (intervalAt track fpb tun0 idx 1) (idx + 1) k := by
          rw [ih]
      _ = tun0 + (sumIntervals track fpb (intervalAt track fpb tun0 idx 1)
              (idx + 1) k +
            intervalAt track fpb (intervalAt track fpb tun0 idx 1) (idx + 1) k) := by
          ring
      _ = tun0 + sumIntervals track fpb (intervalAt track fpb tun0 idx 1)
            (idx + 1) (k + 1) := rfl

lemma seqLoop_spec (track : List SeqEv) (fpb : ℚ) :
    ∀ (fuel : ℕ) (s : SeqState) (s1 : SeqState) (sp : List (ℕ × ℚ)),
      s.idx ≤ track.length → track.length - s.idx ≤ fuel →
      seqLoop track fpb fuel s = (s1, sp) →
      (s.idx ≤ s1.idx ∧ s1.idx ≤ track.length ∧
        (∀ j, j < s1.idx - s.idx →
          sumIntervals track fpb s.tun s.idx (j + 1) ≤ s.acc) ∧
        s1.acc = s.acc - sumIntervals track fpb s.tun s.idx (s1.idx - s.idx) ∧
        (s1.idx = track.length ∨ s1.acc < s1.tun) ∧
        sp = (List.range (s1.idx - s.idx)).filterMap (fun j =>
          if (track.getD (s.idx + j) ⟨false, 0⟩).isNote then
            some (s.idx + j, s.acc - sumIntervals track fpb s.tun s.idx (j + 1))
          else none)) := by
  intro fuel
  induction fuel with
  | zero =>
    intro s s1 sp hidx hfuel heq
    have hidxeq : s.idx = track.length := by omega
    rw [seqLoop] at heq
    injection heq with h1 h2
    subst h1
    subst h2
    refine ⟨le_refl _, by omega, ?_, ?_, Or.inl hidxeq, ?_⟩
    · intro j hj; omega
    · simp [sumIntervals]
    · simp
  | succ fuel ih =>
    intro s s1 sp hidx hfuel heq
    by_cases hguard : s.tun ≤ s.acc ∧ s.idx < track.length
    · have hstep : seqLoop track fpb (fuel + 1) s =
          ((seqLoop track fpb fuel
              ⟨s.idx + 1, s.acc - s.tun,
                if (track.get ⟨s.idx, hguard.2⟩).duration * fpb ≤ 0 then 1 / 10
                else (track.get ⟨s.idx, hguard.2⟩).duration * fpb⟩).1,
            (if (track.get ⟨s.idx, hguard.2⟩).isNote then
              [(s.idx, s.acc - s.tun)] else []) ++
            (seqLoop track fpb fuel
              ⟨s.idx + 1, s.acc - s.tun,
                if (track.get ⟨s.idx, hguard.2⟩).duration * fpb ≤ 0 then 1 / 10
                else (track.get ⟨s.idx, hguard.2⟩).duration * fpb⟩).2) := by
        rw [seqLoop, dif_pos hguard]
      rw [hstep] at heq
      injection heq with h1 h2
      obtain ⟨ha, hb, hc, hd, he, hf⟩ := ih
        ⟨s.idx + 1, s.acc - s.tun,
          if (track.get ⟨s.idx, hguard.2⟩).duration * fpb ≤ 0 then 1 / 10
          else (track.get ⟨s.idx, hguard.2⟩).duration * fpb⟩
        _ _ (show s.idx + 1 ≤ track.length by omega)
        (show track.length - (s.idx + 1) ≤ fuel by omega) rfl
      simp only [] at ha hb hc hd he hf
      rw [h1] at ha hb hc hd he hf
      have hgetd : track.getD s.idx ⟨false, 0⟩ = track.get ⟨s.idx, hguard.2⟩ := by
        rw [List.getD_eq_getElem _ _ hguard.2]
        rfl
      have htun1 : intervalAt track fpb s.tun s.idx 1 =
          (if (track.get ⟨s.idx, hguard.2⟩).duration * fpb ≤ 0 then 1 / 10
            else (track.get ⟨s.idx, hguard.2⟩).duration * fpb) := by
        show (let d := (track.getD (s.idx + 0) ⟨false, 0⟩).duration * fpb
              if d ≤ 0 then 1 / 10 else d) = _
        rw [Nat.add_zero, hgetd]
      have hk : s1.idx - s.idx = (s1.idx - (s.idx + 1)) + 1 := by omega
      refine ⟨by omega, hb, ?_, ?_, he, ?_⟩
      · intro j hj
        cases j with
        | zero =>
          show sumIntervals track fpb s.tun s.idx 0 +
              intervalAt track fpb s.tun s.idx 0 ≤ s.acc
          simp only [sumIntervals, intervalAt]
          linarith [hguard.1]
        | succ jj =>
          rw [sumIntervals_shift track fpb s.tun s.idx (jj + 1), htun1]
          have h3 := hc jj (by omega)
          linarith
      · rw [hk, sumIntervals_shift track fpb s.tun s.idx (s1.idx - (s.idx + 1)),
          htun1, hd]
        ring
      · rw [← h2, hf, hk]
        simp only [List.range_succ_eq_map, List.filterMap_cons,
          List.filterMap_map, Nat.add_zero]
        rw [hgetd]
        have htail : List.filterMap
              (fun j =>
                if (track.getD (s.idx + 1 + j) ⟨false, 0⟩).isNote then
                  some (s.idx + 1 + j, s.acc - s.tun -
                    sumIntervals track fpb
                      (if (track.get ⟨s.idx, hguard.2⟩).duration * fpb ≤ 0
                        then 1 / 10
                        else (track.get ⟨s.idx, hguard.2⟩).duration * fpb)
                      (s.idx + 1) (j + 1))
                else none)
              (List.range (s1.idx - (s.idx + 1))) =
            List.filterMap
              ((fun j =>
                if (track.getD (s.idx + j) ⟨false, 0⟩).isNote then
                  some (s.idx + j,
                    s.acc - sumIntervals track fpb s.tun s.idx (j + 1))
                else none) ∘ Nat.succ)
              (List.range (s1.idx - (s.idx + 1))) := by
          apply List.filterMap_congr
          intro j hj
          simp only [Function.comp_apply, Nat.succ_eq_add_one]
          have hidx2 : s.idx + (j + 1) = s.idx + 1 + j := by omega
          rw [hidx2, sumIntervals_shift track fpb s.tun s.idx (j + 1), htun1]
          have harith : s.acc - s.tun -
              sumIntervals track fpb
                (if (track.get ⟨s.idx, hguard.2⟩).duration * fpb ≤ 0 then 1 / 10
                  else (track.get ⟨s.idx, hguard.2⟩).duration * fpb)
                (s.idx + 1) (j + 1) =
              s.acc - (s.tun + sumIntervals track fpb
                (if (track.get ⟨s.idx, hguard.2⟩).duration * fpb ≤ 0 then 1 / 10
                  else (track.get ⟨s.idx, hguard.2⟩).duration * fpb)
                (s.idx + 1) (j + 1)) := by ring
          rw [harith]
        rw [htail]
        rcases hn : (track.get ⟨s.idx, hguard.2⟩).isNote with _ | _
        · simp [hn]
        · simp [hn, sumIntervals, intervalAt]
    · have hstep : seqLoop track fpb (fuel + 1) s = (s, []) := by
        rw [seqLoop, dif_neg hguard]
      rw [hstep] at heq
      injection heq with h1 h2
      subst h1
      subst h2
      have hexit : s.idx = track.length ∨ s.acc < s.tun := by
        rcases not_and_or.mp hguard with h | h
        · exact Or.inr (lt_of_not_le h)
        · exact Or.inl (by omega)
      refine ⟨le_refl _, hidx, ?_, ?_, hexit, ?_⟩
      · intro j hj; omega
      · simp [sumIntervals]
      · simp

/-- C6: one ticker step of the melody sequencer consumes events while the
accumulator covers the pending interval and the playhead is not at the
end; each consumption subtracts the consumed interval (the final
accumulator is the initial one plus the delta minus the sum of consumed
intervals, so overflow is preserved, never reset to zero), and each
spawned note carries the accumulator value after its own subtraction, so
events consumed in one tick keep their relative spacing. -/
theorem sequencerTick_spec (track : List SeqEv) (fpb delta : ℚ) (s : SeqState)
    (hidx : s.idx < track.length) :
    s.idx ≤ (sequencerTick track fpb delta s).1.idx ∧
    (sequencerTick track fpb delta s).1.idx ≤ track.length ∧
    (∀ j, j < (sequencerTick track fpb delta s).1.idx - s.idx →
      sumIntervals track fpb s.tun s.idx (j + 1) ≤ s.acc + delta) ∧
    (sequencerTick track fpb delta s).1.acc =
      s.acc + delta - sumIntervals track fpb s.tun s.idx
        ((sequencerTick track fpb delta s).1.idx - s.idx) ∧
    ((sequencerTick track fpb delta s).1.idx = track.length ∨
      (sequencerTick track fpb delta s).1.acc <
        (sequencerTick track fpb delta s).1.tun) ∧
    (sequencerTick track fpb delta s).2 =
      (List.range ((sequencerTick track fpb delta s).1.idx - s.idx)).filterMap
        (fun j => if (track.getD (s.idx + j) ⟨false, 0⟩).isNote then
          some (s.idx + j,
            s.acc + delta - sumIntervals track fpb s.tun s.idx (j + 1))
        else none) := by
  have hpos : 0 < track.length ∧ s.idx < track.length := ⟨by omega, hidx⟩
  have hunf : sequencerTick track fpb delta s =
      seqLoop track fpb track.length { s with acc := s.acc + delta } := by
    unfold sequencerTick
    rw [if_pos hpos]
  rw [hunf]
  exact seqLoop_spec track fpb track.length { s with acc := s.acc + delta }
    (seqLoop track fpb track.length { s with acc := s.acc + delta }).1
    (seqLoop track fpb track.length { s with acc := s.acc + delta }).2
    (show s.idx ≤ track.length by omega)
    (show track.length - s.idx ≤ track.length by omega) rfl

/-- Witness for C6 at a concrete tick consuming two events. -/
theorem sequencerTick_spec_witness :
    (0 : ℕ) < ([⟨true, 1⟩, ⟨true, 1⟩] : List SeqEv).length ∧
      (0 : ℕ) ≤ (sequencerTick [⟨true, 1⟩, ⟨true, 1⟩] 1 (5 / 2) ⟨0, 0, 1⟩).1.idx :=
  ⟨by decide,
    (sequencerTick_spec [⟨true, 1⟩, ⟨true, 1⟩] 1 (5 / 2) ⟨0, 0, 1⟩ (by decide)).1⟩

/-! ## Parser safety and flat canonicalization (claims C7 and C10) -/

lemma jsParseFloat_durOk (l : List Char) : DurOk (jsParseFloat l) := by
  unfold jsParseFloat
  rcases h : (l.takeWhile Char.isDigit).isEmpty with _ | _
  · simp only [h, Bool.false_eq_true, if_false]
    exact Or.inr (Or.inr ⟨_, rfl, by positivity⟩)
  · simp only [h, if_true]
    exact Or.inl rfl

lemma jsDiv_durOk (a b : JsNum) (ha : DurOk a) (hb : DurOk b) :
    DurOk (jsDiv a b) := by
  rcases ha with rfl | rfl | ⟨p, rfl, hp⟩ <;>
    rcases hb with rfl | rfl | ⟨q, rfl, hq⟩
  · exact Or.inl rfl
  · exact Or.inl rfl
  · exact Or.inl rfl
  · exact Or.inl rfl
  · exact Or.inl rfl
  · show DurOk (if 0 ≤ q then JsNum.inf else JsNum.negInf)
    rw [if_pos hq]
    exact Or.inr (Or.inl rfl)
  · exact Or.inl rfl
  · exact Or.inr (Or.inr ⟨0, rfl, le_refl 0⟩)
  · show DurOk (if q = 0 then
        (if p = 0 then JsNum.nan else if 0 < p then JsNum.inf else JsNum.negInf)
      else JsNum.fin (p / q))
    by_cases hq0 : q = 0
    · rw [if_pos hq0]
      by_cases hp0 : p = 0
      · rw [if_pos hp0]
        exact Or.inl rfl
      · rw [if_neg hp0, if_pos (lt_of_le_of_ne hp (Ne.symm hp0))]
        exact Or.inr (Or.inl rfl)
    · rw [if_neg hq0]
      exact Or.inr (Or.inr ⟨_, rfl, div_nonneg hp hq⟩)

lemma parseDuration_durOk (l : List Char) : DurOk (parseDuration l) := by
  unfold parseDuration
  by_cases h1 : l.isEmpty
  · rw [if_pos h1]
    exact Or.inr (Or.inr ⟨1, rfl, by norm_num⟩)
  · rw [if_neg h1]
    by_cases h2 : l.contains '/'
    · rw [if_pos h2]
      apply jsDiv_durOk
      · by_cases h3 : (l.splitOn '/').headD [] |>.isEmpty
        · simp only [h3, if_true]
          exact Or.inr (Or.inr ⟨1, rfl, by norm_num⟩)
        · simp only [h3, Bool.false_eq_true, if_false]
          exact jsParseFloat_durOk _
      · by_cases h3 : (l.splitOn '/').getD 1 [] |>.isEmpty
        · simp only [h3, if_true]
          exact Or.inr (Or.inr ⟨2, rfl, by norm_num⟩)
        · simp only [h3, Bool.false_eq_true, if_false]
          exact jsParseFloat_durOk _
    · rw [if_neg h2]
      exact jsParseFloat_durOk l

lemma parseToken_durOk (tok : List Char) : DurOk (parseToken tok).duration :=
  parseDuration_durOk _

lemma noteChar_cases (c : Char) (h : isNoteChar c = true) :
    c = 'A' ∨ c = 'B' ∨ c = 'C' ∨ c = 'D' ∨ c = 'E' ∨ c = 'F' ∨ c = 'G' ∨
    c = 'a' ∨ c = 'b' ∨ c = 'c' ∨ c = 'd' ∨ c = 'e' ∨ c = 'f' ∨ c = 'g' ∨
    c = 'z' := by
  simpa [isNoteChar, noteChars] using h

lemma noteChar_not_special (c : Char) (h : isNoteChar c = true) :
    ¬(c = '^') ∧ ¬(c = '_') ∧ ¬(c = '=') := by
  rcases noteChar_cases c h with rfl | rfl | rfl | rfl | rfl | rfl | rfl | rfl |
    rfl | rfl | rfl | rfl | rfl | rfl | rfl <;>
    exact ⟨by decide, by decide, by decide⟩

lemma noteName_mem (c : Char) (h : isNoteChar c = true) (hz : ¬(c = 'z')) :
    String.singleton c.toUpper ∈ noteLetters := by
  rcases noteChar_cases c h with rfl | rfl | rfl | rfl | rfl | rfl | rfl | rfl |
    rfl | rfl | rfl | rfl | rfl | rfl | rfl <;>
    first
    | exact absurd rfl hz
    | decide

lemma mem_noteLetters_ne_REST (L : String) (h : L ∈ noteLetters) :
    ¬(L = "REST") := by
  fin_cases h <;> decide

lemma flatConvert_shape (name acc : String) (o : ℤ)
    (hname : name ∈ noteLetters) (hacc : acc = "" ∨ acc = "#" ∨ acc = "b") :
    (flatConvert name acc o).1 ∈ noteLetters ∧
      ((flatConvert name acc o).2.1 = "" ∨ (flatConvert name acc o).2.1 = "#") := by
  fin_cases hname <;> rcases hacc with rfl | rfl | rfl <;>
    simp [flatConvert, noteLetters]

lemma mkId_ok (N A : String) (O : ℤ)
    (hN : N = "REST" ∨ N ∈ noteLetters) (hA : A = "" ∨ A = "#" ∨ A = "b") :
    IdOk (if (flatConvert N A O).1 ≠ "REST" then
      some ((flatConvert N A O).1 ++ (flatConvert N A O).2.1 ++
        toString (flatConvert N A O).2.2) else none) := by
  rcases hN with rfl | hN
  · have hconv : flatConvert "REST" A O = ("REST", A, O) := by
      unfold flatConvert
      rw [if_neg (by simp)]
    rw [hconv]
    simp only [ne_eq, not_true_eq_false, if_false]
    exact Or.inl rfl
  · obtain ⟨h1, h2⟩ := flatConvert_shape N A O hN hA
    rw [if_pos (mem_noteLetters_ne_REST _ h1)]
    exact Or.inr ⟨_, _, _, h1, h2, rfl⟩

lemma parseToken_idOk (tok : List Char) (h : TokShape tok) :
    IdOk (parseToken tok).id := by
  obtain ⟨a, c, rest, ha, hc, rfl⟩ := h
  obtain ⟨hne1, hne2, hne3⟩ := noteChar_not_special c hc
  by_cases hz : c = 'z'
  · subst hz
    rcases ha with rfl | rfl | rfl
    · have hid : (parseToken ([] ++ 'z' :: rest)).id = none := by
        simp [parseToken, flatConvert]
      rw [hid]
      exact Or.inl rfl
    · have hid : (parseToken (['^'] ++ 'z' :: rest)).id = none := by
        simp [parseToken, flatConvert]
      rw [hid]
      exact Or.inl rfl
    · have hid : (parseToken (['_'] ++ 'z' :: rest)).id = none := by
        simp [parseToken, flatConvert]
      rw [hid]
      exact Or.inl rfl
  · rcases ha with rfl | rfl | rfl
    · simp only [parseToken, List.nil_append, List.head?_cons, List.tail_cons,
        hne1, hne2, hne3, if_false, ite_false, decide_eq_true_eq,
        Option.some.injEq, hz]
      exact mkId_ok _ _ _ (Or.inr (noteName_mem c hc hz)) (Or.inl rfl)
    · simp only [parseToken, List.cons_append, List.nil_append,
        List.head?_cons, List.tail_cons, if_true, ite_true, if_false,
        ite_false, decide_eq_true_eq, Option.some.injEq, hz, hne1, hne2, hne3]
      exact mkId_ok _ _ _ (Or.inr (noteName_mem c hc hz))
        (Or.inr (Or.inl rfl))
    · have hx : ¬(('_' : Char) = '^') := by decide
      simp only [parseToken, List.cons_append, List.nil_append,
        List.head?_cons, List.tail_cons, hx, if_true, ite_true, if_false,
        ite_false, decide_eq_true_eq, Option.some.injEq, hz, hne1, hne2, hne3]
      exact mkId_ok _ _ _ (Or.inr (noteName_mem c hc hz))
        (Or.inr (Or.inr rfl))

lemma tokenizeF_shape :
    ∀ (fuel : ℕ) (l : List Char) (tok : List Char),
      tok ∈ tokenizeF fuel l → TokShape tok := by
  intro fuel
  induction fuel with
  | zero =>
    intro l tok h
    simp [tokenizeF] at h
  | succ fuel ih =>
    intro l tok h
    match l with
    | [] => simp [tokenizeF] at h
    | c :: rest =>
      by_cases hacc : isAccChar c
      · match rest with
        | [] =>
          rw [tokenizeF.eq_def] at h
          simp [hacc] at h
        | d :: rest2 =>
          by_cases hd : isNoteChar d
          · have hstep : tokenizeF (fuel + 1) (c :: d :: rest2) =
                (c :: d :: (rest2.takeWhile isOctChar ++
                  (rest2.dropWhile isOctChar).takeWhile isDurChar)) ::
                tokenizeF fuel
                  ((rest2.dropWhile isOctChar).dropWhile isDurChar) := by
              rw [tokenizeF.eq_def]
              simp [hacc, hd]
            rw [hstep] at h
            rcases List.mem_cons.mp h with rfl | h
            · have hc2 : c = '^' ∨ c = '_' := by
                simpa [isAccChar] using hacc
              rcases hc2 with rfl | rfl
              · exact ⟨['^'], d, _, Or.inr (Or.inl rfl), hd, rfl⟩
              · exact ⟨['_'], d, _, Or.inr (Or.inr rfl), hd, rfl⟩
            · exact ih _ _ h
          · have hstep : tokenizeF (fuel + 1) (c :: d :: rest2) =
                tokenizeF fuel (d :: rest2) := by
              rw [tokenizeF.eq_def]
              simp [hacc, hd]
            rw [hstep] at h
            exact ih _ _ h
      · by_cases hnote : isNoteChar c
        · have hstep : tokenizeF (fuel + 1) (c :: rest) =
              (c :: (rest.takeWhile isOctChar ++
                (rest.dropWhile isOctChar).takeWhile isDurChar)) ::
              tokenizeF fuel
                ((rest.dropWhile isOctChar).dropWhile isDurChar) := by
            rw [tokenizeF.eq_def]
            simp [hacc, hnote]
          rw [hstep] at h
          rcases List.mem_cons.mp h with rfl | h
          · exact ⟨[], c, _, Or.inl rfl, hnote, rfl⟩
          · exact ih _ _ h
        · have hstep : tokenizeF (fuel + 1) (c :: rest) =
              tokenizeF fuel rest := by
            rw [tokenizeF.eq_def]
            simp [hacc, hnote]
          rw [hstep] at h
          exact ih _ _ h

/-- Every event of `parseABC` has a well-formed id and duration. -/
lemma parseABC_shape (s : String) :
    ∀ ev ∈ parseABC s, IdOk ev.id ∧ DurOk ev.duration := by
  intro ev hev
  obtain ⟨tok, htok, rfl⟩ := List.mem_map.mp hev
  exact ⟨parseToken_idOk tok (tokenizeF_shape _ _ tok htok),
    parseToken_durOk tok⟩

/-! ## Chord reduction (claim C5) -/

lemma noteLe_trans (isAcc : Bool) (a b c3 : MidiNote)
    (h1 : noteLe isAcc a b = true) (h2 : noteLe isAcc b c3 = true) :
    noteLe isAcc a c3 = true := by
  simp only [noteLe, noteCmp, decide_eq_true_eq] at h1 h2 ⊢
  rcases isAcc with _ | _ <;>
    · split_ifs at h1 h2 ⊢ <;> omega

lemma noteLe_total (isAcc : Bool) (a b : MidiNote) :
    (noteLe isAcc a b || noteLe isAcc b a) = true := by
  simp only [noteLe, noteCmp, Bool.or_eq_true, decide_eq_true_eq]
  rcases isAcc with _ | _ <;>
    · split_ifs <;> omega

lemma noteLe_refl (isAcc : Bool) (a : MidiNote) : noteLe isAcc a a = true := by
  simp only [noteLe, noteCmp, decide_eq_true_eq]
  split_ifs <;> omega

lemma noteLe_ticks (isAcc : Bool) (a b : MidiNote)
    (h : noteLe isAcc a b = true) : a.ticks ≤ b.ticks := by
  simp only [noteLe, noteCmp, decide_eq_true_eq] at h
  rcases isAcc with _ | _ <;>
    · split_ifs at h <;> omega

lemma sortNotes_perm (isAcc : Bool) (notes : List MidiNote) :
    (sortNotes isAcc notes).Perm notes :=
  List.mergeSort_perm notes (noteLe isAcc)

lemma sortNotes_pairwise (isAcc : Bool) (notes : List MidiNote) :
    (sortNotes isAcc notes).Pairwise (fun a b => noteLe isAcc a b = true) :=
  List.sorted_mergeSort (noteLe_trans isAcc) (noteLe_total isAcc) notes

lemma sortNotes_ticks_pairwise (isAcc : Bool) (notes : List MidiNote) :
    (sortNotes isAcc notes).Pairwise (fun a b => a.ticks ≤ b.ticks) :=
  (sortNotes_pairwise isAcc notes).imp (fun h => noteLe_ticks _ _ _ h)

lemma dedupTicks_subset :
    ∀ (last : ℤ) (l : List MidiNote), ∀ n ∈ dedupTicks last l, n ∈ l := by
  intro last l
  induction l generalizing last with
  | nil => simp [dedupTicks]
  | cons m l ih =>
    intro n hn
    rw [dedupTicks] at hn
    by_cases heq : |(m.ticks : ℤ) - last| < 1
    · rw [if_pos heq] at hn
      exact List.mem_cons_of_mem _ (ih last n hn)
    · rw [if_neg heq] at hn
      rcases List.mem_cons.mp hn with rfl | hn
      · exact List.mem_cons_self _ _
      · exact List.mem_cons_of_mem _ (ih _ n hn)

lemma dedupTicks_lt :
    ∀ (l : List MidiNote) (last : ℤ),
      l.Pairwise (fun a b => a.ticks ≤ b.ticks) →
      (∀ m ∈ l, last ≤ (m.ticks : ℤ)) →
      ∀ n ∈ dedupTicks last l, last < (n.ticks : ℤ) := by
  intro l
  induction l with
  | nil => simp [dedupTicks]
  | cons m l ih =>
    intro last hpw hinv n hn
    rw [dedupTicks] at hn
    have hml : last ≤ (m.ticks : ℤ) := hinv m (List.mem_cons_self _ _)
    have hpwt := List.pairwise_cons.mp hpw
    by_cases heq : |(m.ticks : ℤ) - last| < 1
    · rw [if_pos heq] at hn
      rw [abs_lt] at heq
      exact ih last hpwt.2 (fun m2 hm2 => hinv m2 (List.mem_cons_of_mem _ hm2))
        n hn
    · rw [if_neg heq] at hn
      rw [abs_lt, not_and_or, not_lt, not_lt] at heq
      rcases List.mem_cons.mp hn with rfl | hn
      · omega
      · have := ih (m.ticks : ℤ) hpwt.2
          (fun m2 hm2 => by exact_mod_cast hpwt.1 m2 hm2) n hn
        omega

lemma dedupTicks_count :
    ∀ (l : List MidiNote) (last : ℤ),
      l.Pairwise (fun a b => a.ticks ≤ b.ticks) →
      (∀ m ∈ l, last ≤ (m.ticks : ℤ)) →
      ∀ t : ℕ, (dedupTicks last l).countP (fun n => n.ticks == t) =
        if (t : ℤ) = last then 0
        else if l.any (fun n => n.ticks == t) then 1 else 0 := by
  intro l
  induction l with
  | nil =>
    intro last hpw hinv t
    simp [dedupTicks]
  | cons m l ih =>
    intro last hpw hinv t
    have hml : last ≤ (m.ticks : ℤ) := hinv m (List.mem_cons_self _ _)
    have hpwt := List.pairwise_cons.mp hpw
    rw [dedupTicks]
    by_cases heq : |(m.ticks : ℤ) - last| < 1
    · rw [if_pos heq]
      rw [abs_lt] at heq
      have hmlast : (m.ticks : ℤ) = last := by omega
      rw [ih last hpwt.2
        (fun m2 hm2 => hinv m2 (List.mem_cons_of_mem _ hm2)) t]
      by_cases ht : (t : ℤ) = last
      · rw [if_pos ht, if_pos ht]
      · rw [if_neg ht, if_neg ht]
        have hbq : (m.ticks == t) = false := by
          rw [beq_eq_false_iff_ne]
          intro hmt2
          apply ht
          rw [← hmt2]
          exact hmlast
        rw [List.any_cons, hbq, Bool.false_or]
    · rw [if_neg heq]
      rw [abs_lt, not_and_or, not_lt, not_lt] at heq
      have hmgt : last < (m.ticks : ℤ) := by omega
      rw [List.countP_cons,
        ih (m.ticks : ℤ) hpwt.2
          (fun m2 hm2 => by exact_mod_cast hpwt.1 m2 hm2) t]
      by_cases hmt : m.ticks = t
      · subst hmt
        have h1 : ¬(((m.ticks : ℕ) : ℤ) = last) := by omega
        simp [h1]
      · have h2 : (m.ticks == t) = false := by
          rw [beq_eq_false_iff_ne]
          exact hmt
        have h3 : ¬((t : ℤ) = (m.ticks : ℤ)) := by omega
        rw [if_neg h3]
        simp only [h2, Bool.false_eq_true, if_false, Nat.add_zero]
        by_cases ht : (t : ℤ) = last
        · rw [if_pos ht]
          have hnone : l.any (fun n => n.ticks == t) = false := by
            rw [← Bool.not_eq_true, List.any_eq_true]
            rintro ⟨x, hx, hpx⟩
            have hx2 : x.ticks = t := by simpa using hpx
            have hx3 := hpwt.1 x hx
            omega
          rw [hnone]
          simp
        · rw [if_neg ht, List.any_cons, h2, Bool.false_or]

lemma dedupTicks_dominates (isAcc : Bool) :
    ∀ (l : List MidiNote) (last : ℤ),
      l.Pairwise (fun a b => noteLe isAcc a b = true) →
      (∀ m ∈ l, last ≤ (m.ticks : ℤ)) →
      ∀ n ∈ dedupTicks last l, ∀ m ∈ l, m.ticks = n.ticks →
        noteLe isAcc n m = true := by
  intro l
  induction l with
  | nil => simp [dedupTicks]
  | cons m0 l ih =>
    intro last hpw hinv n hn m hm hticks
    have hml : last ≤ (m0.ticks : ℤ) := hinv m0 (List.mem_cons_self _ _)
    have hpwt := List.pairwise_cons.mp hpw
    have hpwticks : l.Pairwise (fun a b => a.ticks ≤ b.ticks) :=
      hpwt.2.imp (fun h => noteLe_ticks _ _ _ h)
    have hpwticks0 : (m0 :: l).Pairwise (fun a b => a.ticks ≤ b.ticks) :=
      hpw.imp (fun h => noteLe_ticks _ _ _ h)
    rw [dedupTicks] at hn
    by_cases heq : |(m0.ticks : ℤ) - last| < 1
    · rw [if_pos heq] at hn
      rw [abs_lt] at heq
      have hm0last : (m0.ticks : ℤ) = last := by omega
      have hgt := dedupTicks_lt l last hpwticks
        (fun m2 hm2 => hinv m2 (List.mem_cons_of_mem _ hm2)) n hn
      rcases List.mem_cons.mp hm with rfl | hm
      · exfalso
        omega
      · exact ih last hpwt.2
          (fun m2 hm2 => hinv m2 (List.mem_cons_of_mem _ hm2)) n hn m hm hticks
    · rw [if_neg heq] at hn
      rw [abs_lt, not_and_or, not_lt, not_lt] at heq
      rcases List.mem_cons.mp hn with rfl | hn
      · rcases List.mem_cons.mp hm with rfl | hm
        · exact noteLe_refl isAcc _
        · exact hpwt.1 m hm
      · have hgt := dedupTicks_lt l (m0.ticks : ℤ) hpwticks
          (fun m2 hm2 => by exact_mod_cast (List.pairwise_cons.mp hpwticks0).1 m2 hm2)
          n hn
        rcases List.mem_cons.mp hm with rfl | hm
        · exfalso
          omega
        · exact ih (m0.ticks : ℤ) hpwt.2
            (fun m2 hm2 => by
              exact_mod_cast (List.pairwise_cons.mp hpwticks0).1 m2 hm2)
            n hn m hm hticks

lemma dedupTicks_run_head :
    ∀ (l : List MidiNote) (last : ℤ),
      l.Pairwise (fun a b => a.ticks ≤ b.ticks) →
      (∀ m ∈ l, last ≤ (m.ticks : ℤ)) →
      ∀ n ∈ dedupTicks last l,
        ∃ pre suf, l = pre ++ n :: suf ∧ ∀ m ∈ pre, m.ticks ≠ n.ticks := by
  intro l
  induction l with
  | nil => simp [dedupTicks]
  | cons m0 l ih =>
    intro last hpw hinv n hn
    have hml : last ≤ (m0.ticks : ℤ) := hinv m0 (List.mem_cons_self _ _)
    have hpwt := List.pairwise_cons.mp hpw
    rw [dedupTicks] at hn
    by_cases heq : |(m0.ticks : ℤ) - last| < 1
    · rw [if_pos heq] at hn
      rw [abs_lt] at heq
      have hm0last : (m0.ticks : ℤ) = last := by omega
      have hgt := dedupTicks_lt l last hpwt.2
        (fun m2 hm2 => hinv m2 (List.mem_cons_of_mem _ hm2)) n hn
      obtain ⟨pre, suf, rfl, hpre⟩ := ih last hpwt.2
        (fun m2 hm2 => hinv m2 (List.mem_cons_of_mem _ hm2)) n hn
      refine ⟨m0 :: pre, suf, rfl, ?_⟩
      intro m hm
      rcases List.mem_cons.mp hm with rfl | hm
      · intro hmt
        omega
      · exact hpre m hm
    · rw [if_neg heq] at hn
      rcases List.mem_cons.mp hn with rfl | hn
      · exact ⟨[], l, rfl, by simp⟩
      · have hgt := dedupTicks_lt l (m0.ticks : ℤ) hpwt.2
          (fun m2 hm2 => by exact_mod_cast hpwt.1 m2 hm2) n hn
        obtain ⟨pre, suf, rfl, hpre⟩ := ih (m0.ticks : ℤ) hpwt.2
          (fun m2 hm2 => by exact_mod_cast hpwt.1 m2 hm2) n hn
        refine ⟨m0 :: pre, suf, rfl, ?_⟩
        intro m hm
        rcases List.mem_cons.mp hm with rfl | hm
        · intro hmt
          omega
        · exact hpre m hm

lemma filter_stable (isAcc : Bool) (notes : List MidiNote) (p : MidiNote → Bool)
    (hp : ∀ x, p x = true → ∀ y, p y = true → noteLe isAcc x y = true) :
    notes.filter p = (sortNotes isAcc notes).filter p := by
  have hsub : (notes.filter p).Sublist notes := List.filter_sublist notes
  have hpw : (notes.filter p).Pairwise (fun a b => noteLe isAcc a b = true) :=
    List.pairwise_of_forall_mem_list (fun a ha b hb =>
      hp a (List.mem_filter.mp ha).2 b (List.mem_filter.mp hb).2)
  have hstable : (notes.filter p).Sublist (sortNotes isAcc notes) :=
    List.sublist_mergeSort (noteLe_trans isAcc) (noteLe_total isAcc) hpw hsub
  have hself : (notes.filter p).filter p = notes.filter p :=
    List.filter_eq_self.mpr (fun a ha => (List.mem_filter.mp ha).2)
  have hsub2 : (notes.filter p).Sublist ((sortNotes isAcc notes).filter p) := by
    rw [← hself]
    exact List.Sublist.filter p hstable
  have hperm2 : ((sortNotes isAcc notes).filter p).Perm (notes.filter p) :=
    List.Perm.filter p (sortNotes_perm isAcc notes)
  exact hsub2.eq_of_length hperm2.length_eq.symm

lemma reduceChords_head (isAcc : Bool) (notes : List MidiNote) :
    ∀ n ∈ reduceChords isAcc notes,
      (notes.filter (fun m => m.ticks == n.ticks && m.midi == n.midi)).head? =
        some n := by
  intro n hn
  have hpimp : ∀ x : MidiNote,
      (x.ticks == n.ticks && x.midi == n.midi) = true →
      x.ticks = n.ticks ∧ x.midi = n.midi := by
    intro x hx
    simpa using hx
  have hle : ∀ x, (x.ticks == n.ticks && x.midi == n.midi) = true →
      ∀ y, (y.ticks == n.ticks && y.midi == n.midi) = true →
      noteLe isAcc x y = true := by
    intro x hx y hy
    obtain ⟨hx1, hx2⟩ := hpimp x hx
    obtain ⟨hy1, hy2⟩ := hpimp y hy
    simp only [noteLe, noteCmp, decide_eq_true_eq]
    rcases isAcc with _ | _ <;>
      · split_ifs <;> omega
  have hfilter := filter_stable isAcc notes
    (fun m => m.ticks == n.ticks && m.midi == n.midi) hle
  have hpw := sortNotes_ticks_pairwise isAcc notes
  have hinv : ∀ m ∈ sortNotes isAcc notes, (-1 : ℤ) ≤ (m.ticks : ℤ) := by
    intro m hm
    omega
  obtain ⟨pre, suf, hdecomp, hpre⟩ :=
    dedupTicks_run_head (sortNotes isAcc notes) (-1) hpw hinv n hn
  rw [hfilter, hdecomp, List.filter_append]
  have hprefilter :
      pre.filter (fun m => m.ticks == n.ticks && m.midi == n.midi) = [] := by
    rw [List.filter_eq_nil_iff]
    intro a ha hpa
    exact hpre a ha (hpimp a hpa).1
  rw [hprefilter, List.filter_cons_of_pos (by simp)]
  rfl

/-- C5: chord reduction keeps exactly one event per onset-tick group; the
kept event carries the extreme pitch of its group (highest for the melody
role, lowest for the accompaniment role); the kept event is the first
input event with that tick and that pitch (stable tie-break); and the
simultaneous onsets 60 and 64 reduce to 64 on a melody track and 60 on an
accompaniment track. -/
theorem reduceChords_spec (isAcc : Bool) (notes : List MidiNote) :
    (∀ t : ℕ, (reduceChords isAcc notes).countP (fun n => n.ticks == t) =
        (if notes.any (fun n => n.ticks == t) then 1 else 0)) ∧
    (∀ n ∈ reduceChords isAcc notes, ∀ m ∈ notes, m.ticks = n.ticks →
        (if isAcc then n.midi ≤ m.midi else m.midi ≤ n.midi)) ∧
    (∀ n ∈ reduceChords isAcc notes,
        (notes.filter (fun m => m.ticks == n.ticks && m.midi == n.midi)).head? =
          some n) ∧
    reduceChords false [⟨0, 60, 1⟩, ⟨0, 64, 1⟩] = [⟨0, 64, 1⟩] ∧
    reduceChords true [⟨0, 60, 1⟩, ⟨0, 64, 1⟩] = [⟨0, 60, 1⟩] := by
  refine ⟨?_, ?_, reduceChords_head isAcc notes, ?_, ?_⟩
  · intro t
    have hcount := dedupTicks_count (sortNotes isAcc notes) (-1)
      (sortNotes_ticks_pairwise isAcc notes) (by intro m hm; omega) t
    rw [show reduceChords isAcc notes =
      dedupTicks (-1) (sortNotes isAcc notes) from rfl, hcount]
    rw [if_neg (by omega : ¬((t : ℤ) = -1))]
    have hany : (sortNotes isAcc notes).any (fun n => n.ticks == t) =
        notes.any (fun n => n.ticks == t) := by
      rcases h : notes.any (fun n => n.ticks == t) with _ | _
      · rw [← Bool.not_eq_true, List.any_eq_true]
        rintro ⟨x, hx, hpx⟩
        have hx2 : x ∈ notes := (sortNotes_perm isAcc notes).mem_iff.mp hx
        have : notes.any (fun n => n.ticks == t) = true :=
          List.any_eq_true.mpr ⟨x, hx2, hpx⟩
        rw [h] at this
        cases this
      · rw [List.any_eq_true]
        obtain ⟨x, hx, hpx⟩ := List.any_eq_true.mp h
        exact ⟨x, (sortNotes_perm isAcc notes).mem_iff.mpr hx, hpx⟩
    rw [hany]
  · intro n hn m hm hticks
    have hmem : m ∈ sortNotes isAcc notes :=
      (sortNotes_perm isAcc notes).mem_iff.mpr hm
    have hdom := dedupTicks_dominates isAcc (sortNotes isAcc notes) (-1)
      (sortNotes_pairwise isAcc notes) (by intro x hx; omega) n hn m hmem hticks
    simp only [noteLe, noteCmp, decide_eq_true_eq] at hdom
    rw [if_pos hticks.symm] at hdom
    rcases isAcc with _ | _
    · simp only [Bool.false_eq_true, if_false] at hdom ⊢
      omega
    · simp only [if_true] at hdom ⊢
      omega
  · simp [reduceChords, sortNotes, List.mergeSort, noteLe, noteCmp, dedupTicks]
  · simp [reduceChords, sortNotes, List.mergeSort, noteLe, noteCmp, dedupTicks]

/-- Witness for C5: the concrete melody-role reduction, by the theorem. -/
theorem reduceChords_spec_witness :
    reduceChords false [⟨0, 60, 1⟩, ⟨0, 64, 1⟩] = [⟨0, 64, 1⟩] :=
  (reduceChords_spec false []).2.2.2.1

/-! ## Claim theorems for the codec -/

/-- C7: every flat accidental decodes to a sharp-or-natural spelling —
flat D, E, G, A, B map to the sharp of the letter below in the same
octave, flat C maps to B one octave lower, flat F maps to E with no
accidental — and no event produced by `parseABC` ever carries anything but
a letter, an optional sharp, and an octave in its id. -/
theorem flatAccidentals_canonicalized :
    (parseABC "_D" = [⟨some "C#4", .fin 1⟩] ∧
      parseABC "_E" = [⟨some "D#4", .fin 1⟩] ∧
      parseABC "_G" = [⟨some "F#4", .fin 1⟩] ∧
      parseABC "_A" = [⟨some "G#4", .fin 1⟩] ∧
      parseABC "_B" = [⟨some "A#4", .fin 1⟩] ∧
      parseABC "_C" = [⟨some "B3", .fin 1⟩] ∧
      parseABC "_F" = [⟨some "E4", .fin 1⟩]) ∧
    (∀ o : ℤ, flatConvert "D" "b" o = ("C", "#", o) ∧
      flatConvert "E" "b" o = ("D", "#", o) ∧
      flatConvert "G" "b" o = ("F", "#", o) ∧
      flatConvert "A" "b" o = ("G", "#", o) ∧
      flatConvert "B" "b" o = ("A", "#", o) ∧
      flatConvert "C" "b" o = ("B", "", o - 1) ∧
      flatConvert "F" "b" o = ("E", "", o)) ∧
    (∀ (s : String), ∀ ev ∈ parseABC s, ∀ idStr, ev.id = some idStr →
      ∃ L acc oct, L ∈ noteLetters ∧ (acc = "" ∨ acc = "#") ∧
        idStr = L ++ acc ++ toString (oct : ℤ)) := by
  refine ⟨by decide, ?_, ?_⟩
  · intro o
    refine ⟨?_, ?_, ?_, ?_, ?_, ?_, ?_⟩ <;> simp [flatConvert]
  · intro s ev hev idStr hid
    rcases (parseABC_shape s ev hev).1 with h | ⟨L, acc, oct, h1, h2, h3⟩
    · rw [h] at hid
      cases hid
    · refine ⟨L, acc, oct, h1, h2, ?_⟩
      rw [h3] at hid
      injection hid with hid
      exact hid.symm

/-- Witness for C7: the general no-flat shape applied to the decoded
flat-D token. -/
theorem flatAccidentals_canonicalized_witness :
    ∃ L acc oct, L ∈ noteLetters ∧ (acc = "" ∨ acc = "#") ∧
      "C#4" = L ++ acc ++ toString (oct : ℤ) :=
  flatAccidentals_canonicalized.2.2 "_D" ⟨some "C#4", .fin 1⟩ (by decide)
    "C#4" rfl

/-- C10 counterexample: a fraction token with an explicit zero denominator
parses to an infinite duration, so not every parsed duration is finite. -/
theorem parseABC_infinite_duration : parseABC "C1/0" = [⟨some "C4", .inf⟩] := by
  decide

/-- C10 (amended): `parseABC` is total and returns events whose id is
absent or a letter A–G with an optional sharp and an integer octave, and
whose duration is a non-negative rational — or NaN or Infinity in the
degenerate fraction cases; a missing numerator defaults to 1, a missing
denominator defaults to 2, and a zero duration is possible. -/
theorem parseABC_safety :
    (∀ (s : String), ∀ ev ∈ parseABC s, IdOk ev.id ∧ DurOk ev.duration) ∧
    parseABC "C0" = [⟨some "C4", .fin 0⟩] ∧
    parseABC "C/" = [⟨some "C4", .fin (1 / 2)⟩] ∧
    parseABC "C/4" = [⟨some "C4", .fin (1 / 4)⟩] ∧
    parseABC "C3/" = [⟨some "C4", .fin (3 / 2)⟩] ∧
    parseABC "C3/2" = [⟨some "C4", .fin (3 / 2)⟩] :=
  ⟨parseABC_shape, by decide, by decide, by decide, by decide, by decide⟩

/-- Witness for C10: the shape guarantee applied to the decoded token of
"C0". -/
theorem parseABC_safety_witness :
    IdOk (NoteEv.mk (some "C4") (.fin 0)).id ∧
      DurOk (NoteEv.mk (some "C4") (.fin 0)).duration :=
  parseABC_safety.1 "C0" ⟨some "C4", .fin 0⟩ (by decide)

/-- C9: the text "C2E2G2c4" decodes to the four expected note events, and
encoding the corresponding event list (C4, E4, G4 for two units each and
C5 for four units) reproduces the identical string. -/
theorem roundTrip_example :
    parseABC "C2E2G2c4" =
      [⟨some "C4", .fin 2⟩, ⟨some "E4", .fin 2⟩, ⟨some "G4", .fin 2⟩,
        ⟨some "C5", .fin 4⟩] ∧
    convertEventsToAbc [.note 60 2, .note 64 2, .note 67 2, .note 72 4] 53 76 =
      "C2E2G2c4" := by
  exact ⟨by decide, by decide⟩

/-- C1 evidence: the encoder writes the octave-lowering dot and the
URL-safe fraction mark, but `parseABC` recognizes neither.  A note below
the reference octave (A3, MIDI 57) encodes to "A." and decodes to A4, one
octave too high; a 1.5-unit note encodes to "C3~2" and decodes with
duration 3.  Decode of encode therefore reproduces neither every pitch
nor every duration. -/
theorem encodeDecode_mismatch :
    convertEventsToAbc [.note 57 1] 53 76 = "A." ∧
    parseABC "A." = [⟨some "A4", .fin 1⟩] ∧
    convertEventsToAbc [.note 60 (3 / 2)] 53 76 = "C3~2" ∧
    parseABC "C3~2" = [⟨some "C4", .fin 3⟩] := by
  exact ⟨by decide, by decide, by decide, by decide⟩

/-- Witness for C2: the 1.5/0.5 duration sequence needs multiplier 2,
extracted from the multiplier-search theorem. -/
theorem bestMultiplier_spec_witness :
    bestMultiplier [.note 60 (3 / 2), .note 60 (1 / 2)] = 2 :=
  (bestMultiplier_spec []).2.2.2.2

/-- Witness for C4: pressing lane 0 on the two-lane chord removes exactly
the lane-0 note, extracted from the judgment theorem. -/
theorem pressKey_spec_witness :
    pressKeyResult 0 200 [⟨200, 0, true, false⟩, ⟨200, 1, true, false⟩] =
      [⟨200, 1, true, false⟩] :=
  (pressKey_spec 0 200 []).2.2.2.2.1

end RhythmPiano
